import Mathlib

/-!
Verification of the Hill and Vigenère cipher implementations
(`hills.py`, `vigenere.py`) against their specification.

Strings are modelled as lists of character codes (`List Int`, Python `ord`
values).  Python `%` on the positive modulus 26 agrees with `Int.emod`.
Code that can raise a Python exception is modelled with `Option` (Hill side,
where the only reachable exception is an `IndexError` on odd-length block
input) or `Except PyErr` (Vigenère side, where several exception kinds
matter).
-/

namespace Hills

/-- Table of inverses mod 26 (`INV_MOD_26` in `hills.py`): the index is the
element and the value is its multiplicative inverse, `-1` when no inverse
exists. -/
def INV_MOD_26 : List Int :=
  [-1, 1, -1, 9, -1, 21, -1, 15, -1, 3, -1, 19, -1, -1, -1, 7, -1, 23, -1, 11,
   -1, 5, -1, 17, -1, 25]

/-- Helper `mod_26` from `hills.py`.  Python `%` with the positive modulus 26
returns a value in `[0, 25]`, exactly as `Int.emod`. -/
def mod_26 (x : Int) : Int := x % 26

/-- A 2×2 integer matrix `[[a, b], [c, d]]` (`np.ndarray` of shape `(2, 2)`
in the source). -/
structure Mat2 where
  a : Int
  b : Int
  c : Int
  d : Int
deriving DecidableEq

/-- Determinant `a*d - b*c`.  The source computes it as
`int(round(np.linalg.det(K), 0))`, which is exact on these small integer
matrices. -/
def Mat2.det (K : Mat2) : Int := K.a * K.d - K.b * K.c

/-- `is_valid_key` from `hills.py`: first every entry is checked to lie in
`[MIN_BOUND, MAX_BOUND] = [0, 25]` (early `return False` otherwise), then the
determinant reduced mod 26 must be invertible according to `INV_MOD_26`. -/
def is_valid_key (K : Mat2) : Bool :=
  if K.a < 0 ∨ 25 < K.a then false
  else if K.b < 0 ∨ 25 < K.b then false
  else if K.c < 0 ∨ 25 < K.c then false
  else if K.d < 0 ∨ 25 < K.d then false
  else if K.det % 26 = 0 ∨ INV_MOD_26.get! (K.det % 26).toNat = -1 then false
  else true

/-- `extend_text` from `hills.py`: appends `FILL_CHAR = 'x'` (code 120)
`fill_amount = len % N` times when the length is not a multiple of `N = 2`. -/
def extend_text (plain_text : List Int) : List Int :=
  if plain_text.length % 2 ≠ 0 then
    plain_text ++ List.replicate (plain_text.length % 2) 120
  else plain_text

/-- Core block loop shared by `encrypt` and `decrypt` in `hills.py`: both run
`for i in range(0, len, N)` over blocks of `N = 2` characters, multiply the
block vector by the matrix, reduce mod 26 and convert back to characters
(`chr(... + 97)`).  On an odd-length input the final singleton block makes
the source raise `IndexError` at `text[j + i]`; this is modelled by `none`. -/
def hillApply (K : Mat2) : List Int → Option (List Int)
  | [] => some []
  | [_] => none
  | x :: y :: rest =>
    let p := x - 97
    let q := y - 97
    match hillApply K rest with
    | none => none
    | some r =>
      some ((mod_26 (K.a * p + K.b * q) + 97) ::
            (mod_26 (K.c * p + K.d * q) + 97) :: r)

/-- `encrypt` from `hills.py`: extends the plain text to even length, then
applies the key matrix blockwise. -/
def encrypt (plain_text : List Int) (K : Mat2) : Option (List Int) :=
  hillApply K (extend_text plain_text)

/-- `decrypt` from `hills.py`: applies the key matrix blockwise to the cipher
text (no length extension). -/
def decrypt (cipher_text : List Int) (K : Mat2) : Option (List Int) :=
  hillApply K cipher_text

/-- `invert` from `hills.py`: reduces the determinant mod 26, returns `None`
if it is 0 or has no inverse in `INV_MOD_26`, and otherwise returns the
adjugate `[d, -b; -c, a]` scaled by the inverse of the determinant, each
entry reduced mod 26. -/
def invert (M : Mat2) : Option Mat2 :=
  let determinant := M.det % 26
  if determinant = 0 then none
  else
    let mul_inv := INV_MOD_26.get! determinant.toNat
    if mul_inv = -1 then none
    else
      some ⟨mod_26 (mul_inv * M.d), mod_26 (mul_inv * (-M.b)),
            mod_26 (mul_inv * (-M.c)), mod_26 (mul_inv * M.a)⟩

/-- Modelled from the spec: the 2×2 matrix product reduced entrywise mod 26,
used to state `K · invert(K) mod 26 == Identity`. -/
def matMulMod (A B : Mat2) : Mat2 :=
  ⟨mod_26 (A.a * B.a + A.b * B.c), mod_26 (A.a * B.b + A.b * B.d),
   mod_26 (A.c * B.a + A.d * B.c), mod_26 (A.c * B.b + A.d * B.d)⟩

/-- The candidate keys enumerated by `brute_force` in `hills.py`, in the
order of its four nested loops `for i / j / k / l in range(0, 26)` with
`K = [[i, j], [k, l]]`. -/
def keyCandidates : List Mat2 :=
  (List.range 26).flatMap fun (i : Nat) =>
    (List.range 26).flatMap fun (j : Nat) =>
      (List.range 26).flatMap fun (k : Nat) =>
        (List.range 26).map fun (l : Nat) =>
          ⟨(i : Int), (j : Int), (k : Int), (l : Int)⟩

/-- Body of the nested loops of `brute_force` in `hills.py`: each candidate
is checked with `is_valid_key`; a valid candidate is used to decrypt, and the
key is returned on the first exact match with the plain text.  The outer
`none` models a propagated exception from `decrypt` (odd-length cipher
text); `some none` is the source's final `return None`. -/
def brute_force_go (ct pt : List Int) : List Mat2 → Option (Option Mat2)
  | [] => some none
  | K :: rest =>
    if is_valid_key K then
      match decrypt ct K with
      | none => none
      | some d => if d = pt then some (some K) else brute_force_go ct pt rest
    else brute_force_go ct pt rest

/-- `brute_force` from `hills.py`: scans `keyCandidates` in loop order. -/
def brute_force (cipher_text plain_text : List Int) : Option (Option Mat2) :=
  brute_force_go cipher_text plain_text keyCandidates

end Hills

/-- The Python exception kinds relevant to `vigenere.py`. -/
inductive PyErr where
  | typeError
  | indexError
  | zeroDivisionError
deriving DecidableEq

deriving instance DecidableEq for Except

namespace Vigenere

/-- Helper `mod_26` from `vigenere.py`. -/
def mod_26 (x : Int) : Int := x % 26

/-- `FREQ_ORDER = 'etaoinshrdlcumwfgypbvkjxqz'` as character codes. -/
def FREQ_ORDER : List Int :=
  [101, 116, 97, 111, 105, 110, 115, 104, 114, 100, 108, 99, 117, 109, 119,
   102, 103, 121, 112, 98, 118, 107, 106, 120, 113, 122]

/-- Python `c.lower()` on a single ASCII character code. -/
def pyLower (c : Int) : Int := if 65 ≤ c ∧ c ≤ 90 then c + 32 else c

/-- Python `s.replace(' ', '')` on a code list. -/
def stripSpaces (l : List Int) : List Int := l.filter fun c => c ≠ 32

/-- `analyze_frequency` from `vigenere.py`: walks the text and increments the
counter of every character that is a lowercase letter (`char in ALPHABET`),
starting from 26 zeros. -/
def analyze_frequency (cipher_text : List Int) : List Nat :=
  cipher_text.foldl
    (fun freq c =>
      if 97 ≤ c ∧ c ≤ 122 then
        freq.set (c - 97).toNat (freq.get! (c - 97).toNat + 1)
      else freq)
    (List.replicate 26 0)

/-- `calculate_IC` from `vigenere.py`: strips spaces, lowercases, sums
`n * (n - 1)` over the frequency table and divides by `N * (N - 1)`.  Only
`N == 0` is guarded; for `N = 1` the denominator is `0` and Python raises
`ZeroDivisionError`.  Python's float division is modelled exactly in `ℚ`. -/
def calculate_IC (cipher_text : List Int) : Except PyErr ℚ :=
  let ct := (stripSpaces cipher_text).map pyLower
  let ct_len := ct.length
  let s : Nat := ((analyze_frequency ct).map fun n => n * (n - 1)).sum
  if ct_len = 0 then .ok 0
  else if ct_len * (ct_len - 1) = 0 then .error .zeroDivisionError
  else .ok ((s : ℚ) / ((ct_len : ℚ) * ((ct_len : ℚ) - 1)))

/-- `_IC_test` from `vigenere.py`: `r = 0.027 n / ((n - 1) IC - 0.038 n + 0.065)`,
modelled exactly in `ℚ`; a zero denominator raises `ZeroDivisionError`. -/
def IC_test (n : Nat) (ic : ℚ) : Except PyErr ℚ :=
  if ((n : ℚ) - 1) * ic - 0.038 * (n : ℚ) + 0.065 = 0 then .error .zeroDivisionError
  else .ok (0.027 * (n : ℚ) / (((n : ℚ) - 1) * ic - 0.038 * (n : ℚ) + 0.065))

/-- Scanner for Python `s.count(sub)` with a nonempty pattern: walks the
text left to right; after a match the next `len(sub) - 1` positions are
skipped (`skip` counter), so occurrences are counted without overlap. -/
def pyCountAux (sub : List Int) : List Int → Nat → Nat
  | [], _ => 0
  | _ :: t, skip + 1 => pyCountAux sub t skip
  | b :: t, 0 =>
    if sub.isPrefixOf (b :: t) then 1 + pyCountAux sub t (sub.length - 1)
    else pyCountAux sub t 0

/-- Python `s.count(sub)`: number of non-overlapping occurrences, scanning
left to right (an empty pattern occurs `len(s) + 1` times). -/
def pyCount (s sub : List Int) : Nat :=
  match sub with
  | [] => s.length + 1
  | _ :: _ => pyCountAux sub s 0

/-- The substring dictionary keys of `kasiski_test`: for `i in range(len)` and
`l in range(i + 3, len)` the slice `ct[i:l]` is recorded when it occurs at
least twice (`ct.count`); dictionary insertion keeps the first occurrence
only. -/
def kasiski_substrings (ct : List Int) : List (List Int) :=
  ((List.range ct.length).flatMap fun (i : Nat) =>
    ((List.range ct.length).drop (i + 3)).filterMap fun (l : Nat) =>
      if 2 ≤ pyCount ct ((ct.drop i).take (l - i)) then some ((ct.drop i).take (l - i))
      else none).foldl
    (fun acc s => if s ∈ acc then acc else acc ++ [s]) []

/-- `kasiski_test` from `vigenere.py`: after the substring scan, the source
runs `for i in range(0, indices_len)` where `indices_len = len(indices) / 2`
is a Python 3 float, so the first repeated substring makes `range` raise
`TypeError`; with no repeated substring the distance list stays empty, the
gcd set is empty and `None` is returned.  (If a repeated substring contains
a regex metacharacter, `re.finditer` can raise a different error first; on
alphabetic cipher text, and for the no-value-returned behaviour used below,
the distinction does not matter.) -/
def kasiski_test (cipher_text : List Int) : Except PyErr (Option (List Nat)) :=
  match kasiski_substrings (stripSpaces cipher_text) with
  | [] => .ok none
  | _ :: _ => .error .typeError

/-- Character loop of `decrypt` in `vigenere.py`, with running index `i`:
each character is shifted back by the keyword character at `i % len(key)`. -/
def decryptGo (keyword : List Int) : Nat → List Int → List Int
  | _, [] => []
  | i, c :: rest =>
    (mod_26 (c - keyword.get! (i % keyword.length)) + 97) :: decryptGo keyword (i + 1) rest

/-- `decrypt` from `vigenere.py`: on a nonempty text with an empty keyword the
first iteration computes `i % 0` and raises `ZeroDivisionError`. -/
def decrypt (cipher_text keyword : List Int) : Except PyErr (List Int) :=
  if cipher_text.length = 0 then .ok []
  else if keyword.length = 0 then .error .zeroDivisionError
  else .ok (decryptGo keyword 0 cipher_text)

/-- Character loop of `encrypt` in `vigenere.py`: each character is shifted
forward by the keyword character at `i % len(key)`
(`mod_26(ord(p[i]) + ord(key[j]) - 2 * 97) + 97`). -/
def encryptGo (key : List Int) : Nat → List Int → List Int
  | _, [] => []
  | i, c :: rest =>
    (mod_26 (c + key.get! (i % key.length) - 2 * 97) + 97) :: encryptGo key (i + 1) rest

/-- `encrypt` from `vigenere.py`; like `decrypt`, an empty keyword with a
nonempty text raises `ZeroDivisionError` at `i % 0`. -/
def encrypt (plain_text key : List Int) : Except PyErr (List Int) :=
  if plain_text.length = 0 then .ok []
  else if key.length = 0 then .error .zeroDivisionError
  else .ok (encryptGo key 0 plain_text)

end Vigenere

namespace Vigenere

/-- Strict lexicographic order on `(frequency, character)` pairs: Python's
tuple comparison used by `sorted(zip(freq, col))`. -/
def pairLT (p q : Nat × Int) : Prop := p.1 < q.1 ∨ (p.1 = q.1 ∧ p.2 < q.2)

instance (p q : Nat × Int) : Decidable (pairLT p q) := by
  unfold pairLT
  infer_instance

/-- Non-strict lexicographic order on `(frequency, character)` pairs. -/
def pairLE (p q : Nat × Int) : Prop := p.1 < q.1 ∨ (p.1 = q.1 ∧ p.2 ≤ q.2)

instance (p q : Nat × Int) : Decidable (pairLE p q) := by
  unfold pairLE
  infer_instance

/-- Stable insertion into a sorted pair list: `x` goes before the first
element not strictly below it, as Python's stable `sorted` would place it. -/
def insertPair (x : Nat × Int) : List (Nat × Int) → List (Nat × Int)
  | [] => [x]
  | y :: ys => if pairLT y x then y :: insertPair x ys else x :: y :: ys

/-- Python `sorted` on `(frequency, character)` pairs (stable, lexicographic
tuple comparison), as a stable insertion sort. -/
def pySortPairs : List (Nat × Int) → List (Nat × Int)
  | [] => []
  | x :: xs => insertPair x (pySortPairs xs)

/-- The `sort = [x for _, x in sorted(zip(freq, col))]` step of
`brute_force` in `vigenere.py`: `zip` pairs the 26 frequency counters
positionally with the column characters (truncating to the shorter), the
pairs are sorted lexicographically, and the characters are extracted. -/
def columnSort (col : List Int) : List Int :=
  (pySortPairs ((analyze_frequency col).zip col)).map Prod.snd

/-- Modelled from the spec: the frequency of the character `c` itself within
the column (`freq[ord(c) - 97]`). -/
def freqKey (col : List Int) (c : Int) : Nat :=
  (analyze_frequency col).get! (c - 97).toNat

/-- Modelled from the spec: stable insertion keyed by a character's own
frequency. -/
def specInsert (key : Int → Nat) (x : Int) : List Int → List Int
  | [] => [x]
  | y :: ys => if key y < key x then y :: specInsert key x ys else x :: y :: ys

/-- Modelled from the spec: helper recursion for the stable
sort-by-own-frequency described by the specification. -/
def specSortGo (key : Int → Nat) : List Int → List Int
  | [] => []
  | x :: xs => specInsert key x (specSortGo key xs)

/-- Modelled from the spec: "sort column characters by ascending frequency
(ties broken by original relative order — a stable sort)", i.e. a stable
sort of the column keyed by each character's own frequency. -/
def specStableSortByFreq (col : List Int) : List Int :=
  specSortGo (freqKey col) col

end Vigenere

namespace Vigenere

/-- Outcome of one piece of the `brute_force` key-recovery loops in
`vigenere.py`: a raised Python exception, an early `return found_key`, or the
updated `(found_key, k)` loop state. -/
inductive Step (s : Type) where
  | error (e : PyErr)
  | done (v : List Int)
  | next (st : s)
deriving DecidableEq

/-- The `shift = mod_26(sort_char - f_char)` computation of `brute_force` in
`vigenere.py`: `sort_char = ord(sort[1]) - 97` is the second entry of the
sorted column and `f_char = ord(FREQ_ORDER[j]) - 97` the `j`-th letter of the
frequency ranking. -/
def candidateShift (sortL : List Int) (j : Nat) : Int :=
  mod_26 ((sortL.get! 1 - 97) - (FREQ_ORDER.get! j - 97))

/-- One iteration of the inner `for j in range(0, NUM_LETTERS)` loop of
`brute_force` in `vigenere.py`: reads `sort[1]` (raising `IndexError` when
the sorted column has fewer than two entries), derives the candidate key
character `chr(mod_26(sort_char - f_char) + 97)`, decrypts the single
character `cipher_text[k]` with it (`IndexError` when `k` is out of range,
likewise for `plain_text[k]` in the comparison), and on a match appends the
key character to `found_key`, returning it early when its length reaches the
cipher-text length; otherwise `k` advances. -/
def jStep (ct pt sortL : List Int) (j : Nat) (fk : List Int) (k : Nat) :
    Step (List Int × Nat) :=
  if 2 ≤ sortL.length then
    let key_char := candidateShift sortL j + 97
    if k < ct.length then
      let decrypt_char := mod_26 (ct.get! k - key_char) + 97
      if k < pt.length then
        if decrypt_char = pt.get! k then
          if (fk ++ [key_char]).length = ct.length then Step.done (fk ++ [key_char])
          else Step.next (fk ++ [key_char], k + 1)
        else Step.next (fk, k)
      else Step.error PyErr.indexError
    else Step.error PyErr.indexError
  else Step.error PyErr.indexError

/-- The inner `for j in range(0, NUM_LETTERS)` loop folded over the list of
`j` values, threading `(found_key, k)`. -/
def jFold (ct pt sortL : List Int) : List Nat → List Int → Nat → Step (List Int × Nat)
  | [], fk, k => Step.next (fk, k)
  | j :: js, fk, k =>
    match jStep ct pt sortL j fk k with
    | Step.error e => Step.error e
    | Step.done v => Step.done v
    | Step.next st => jFold ct pt sortL js st.1 st.2

/-- The `ma_columns` monoalphabetic split of `brute_force` in `vigenere.py`:
column `j` collects the cipher-text characters at indices `i ≡ j (mod p)` in
order. -/
def buildColumns (ct : List Int) (p : Nat) : List (List Int) :=
  (List.range p).map fun (j : Nat) =>
    ((List.range ct.length).filter fun (i : Nat) => i % p = j).map fun (i : Nat) =>
      ct.get! i

/-- The `for i in range(0, probable_len)` column loop of `brute_force`,
sorting each column with the `sorted(zip(freq, col))` step and running the
inner `j` loop over it. -/
def iFold (ct pt : List Int) : List (List Int) → List Int → Nat → Step (List Int × Nat)
  | [], fk, k => Step.next (fk, k)
  | col :: cols, fk, k =>
    match jFold ct pt (columnSort col) (List.range 26) fk k with
    | Step.error e => Step.error e
    | Step.done v => Step.done v
    | Step.next st => iFold ct pt cols st.1 st.2

/-- The outer `for probable_len in probable_lengths` loop of `brute_force`.
With `probable_len = 0` and a nonempty cipher text the column split computes
`i % 0` and raises `ZeroDivisionError`.  After the loop, `found_key` is still
`None` when the loop body never ran (`len(None)` raises `TypeError`);
otherwise the source returns `found_key` when it is nonempty and `None`
otherwise. -/
def plFold (ct pt : List Int) : List Nat → Option (List Int) →
    Except PyErr (Option (List Int))
  | [], fkOpt =>
    match fkOpt with
    | none => Except.error PyErr.typeError
    | some fk => if 0 < fk.length then Except.ok (some fk) else Except.ok none
  | p :: ps, _ =>
    if p = 0 ∧ ct.length ≠ 0 then Except.error PyErr.zeroDivisionError
    else
      match iFold ct pt (buildColumns ct p) [] 1 with
      | Step.error e => Except.error e
      | Step.done v => Except.ok (some v)
      | Step.next st => plFold ct pt ps (some st.1)

/-- `brute_force` from `vigenere.py`: runs `kasiski_test`, `calculate_IC`
and `_IC_test` in source order (each may raise); when Kasiski yields no
candidate list the source assigns `probable_lengths = math.floor(r)` — an
`int`, not a list — for positive `r`, so the following `for` statement
raises `TypeError`; for non-positive `r` it returns `None`.  When Kasiski
yields a list, the column-attack loops run. -/
def brute_force (cipher_text plain_text : List Int) :
    Except PyErr (Option (List Int)) :=
  match kasiski_test cipher_text with
  | Except.error e => Except.error e
  | Except.ok key_lengths =>
    match calculate_IC cipher_text with
    | Except.error e => Except.error e
    | Except.ok ic =>
      match IC_test cipher_text.length ic with
      | Except.error e => Except.error e
      | Except.ok r =>
        match key_lengths with
        | none =>
          if 0 < r then Except.error PyErr.typeError
          else Except.ok none
        | some kls => plFold cipher_text plain_text kls none

end Vigenere

namespace Hills

lemma emod26_nonneg (x : Int) : 0 ≤ x % 26 := Int.emod_nonneg x (by norm_num)

lemma emod26_lt (x : Int) : x % 26 < 26 := Int.emod_lt_of_pos x (by norm_num)

lemma cast_emod26 (x : Int) : ((x % 26 : Int) : ZMod 26) = (x : ZMod 26) := by
  rw [ZMod.intCast_eq_intCast_iff]
  show x % 26 % 26 = x % 26
  exact Int.emod_emod_of_dvd x dvd_rfl

lemma int_eq_of_cast_eq {x y : Int} (hx0 : 0 ≤ x) (hx : x < 26) (hy0 : 0 ≤ y)
    (hy : y < 26) (h : (x : ZMod 26) = (y : ZMod 26)) : x = y := by
  rw [ZMod.intCast_eq_intCast_iff] at h
  have h2 : x % 26 = y % 26 := h
  have hx2 : x % 26 = x := Int.emod_eq_of_lt hx0 hx
  have hy2 : y % 26 = y := Int.emod_eq_of_lt hy0 hy
  omega

lemma mod_26_eq_of_cast {x y : Int} (hy0 : 0 ≤ y) (hy : y < 26)
    (h : (x : ZMod 26) = (y : ZMod 26)) : mod_26 x = y :=
  int_eq_of_cast_eq (emod26_nonneg x) (emod26_lt x) hy0 hy
    ((cast_emod26 x).trans h)

lemma table_mul : ∀ n : Nat, n < 26 → INV_MOD_26.get! n ≠ -1 →
    (INV_MOD_26.get! n * n) % 26 = 1 := by decide

lemma table_bounds : ∀ n : Nat, n < 26 → INV_MOD_26.get! n ≠ -1 →
    0 < INV_MOD_26.get! n ∧ INV_MOD_26.get! n < 26 := by decide

lemma table_invol : ∀ n : Nat, n < 26 → INV_MOD_26.get! n ≠ -1 →
    INV_MOD_26.get! (INV_MOD_26.get! n).toNat = (n : Int) := by decide

lemma table_no_inv : ∀ n : Nat, n < 26 → INV_MOD_26.get! n = -1 →
    ∀ w : Nat, w < 26 → ((n : Int) * w) % 26 ≠ 1 := by decide

lemma table_zero : INV_MOD_26.get! 0 = -1 := by decide

end Hills

namespace Hills

lemma is_valid_key_parts (K : Mat2) :
    is_valid_key K = true ↔
      (0 ≤ K.a ∧ K.a ≤ 25) ∧ (0 ≤ K.b ∧ K.b ≤ 25) ∧
      (0 ≤ K.c ∧ K.c ≤ 25) ∧ (0 ≤ K.d ∧ K.d ≤ 25) ∧
      K.det % 26 ≠ 0 ∧ INV_MOD_26.get! (K.det % 26).toNat ≠ -1 := by
  constructor
  · intro h
    unfold is_valid_key at h
    split_ifs at h with h1 h2 h3 h4 h5
    push_neg at h1 h2 h3 h4 h5
    exact ⟨⟨h1.1, h1.2⟩, ⟨h2.1, h2.2⟩, ⟨h3.1, h3.2⟩, ⟨h4.1, h4.2⟩, h5.1, h5.2⟩
  · rintro ⟨⟨ha1, ha2⟩, ⟨hb1, hb2⟩, ⟨hc1, hc2⟩, ⟨hd1, hd2⟩, hv, ht⟩
    unfold is_valid_key
    rw [if_neg (by omega), if_neg (by omega), if_neg (by omega), if_neg (by omega),
        if_neg (by push_neg; exact ⟨hv, ht⟩)]

end Hills

namespace Hills

lemma exists_inverse_iff_table (v : Int) (hv0 : 0 ≤ v) (hv : v < 26) :
    (∃ y : Int, (v * y) % 26 = 1) ↔ INV_MOD_26.get! v.toNat ≠ -1 := by
  have hvn : v.toNat < 26 := by omega
  have hvc : (v.toNat : Int) = v := Int.toNat_of_nonneg hv0
  constructor
  · rintro ⟨y, hy⟩ ht
    have hw0 : 0 ≤ y % 26 := emod26_nonneg y
    have hwlt : y % 26 < 26 := emod26_lt y
    have hwn : (y % 26).toNat < 26 := by omega
    have hwc : ((y % 26).toNat : Int) = y % 26 := Int.toNat_of_nonneg hw0
    have hno := table_no_inv v.toNat hvn ht (y % 26).toNat hwn
    rw [hvc, hwc] at hno
    have h3 : (v * (y % 26)) % 26 = (v * y) % 26 := by
      conv_lhs => rw [Int.mul_emod]
      conv_rhs => rw [Int.mul_emod]
      rw [Int.emod_emod_of_dvd y dvd_rfl]
    omega
  · intro ht
    refine ⟨INV_MOD_26.get! v.toNat, ?_⟩
    have h4 := table_mul v.toNat hvn ht
    rw [hvc] at h4
    rw [mul_comm]
    exact h4

end Hills

namespace Hills

/-- Claim C6: `is_valid_key K` is true iff all four entries lie in `[0, 25]`
and the determinant `a*d - b*c`, reduced mod 26 into `[0, 25]`, has a
multiplicative inverse mod 26; consequently it is false whenever the reduced
determinant is `0`, `2`, `4` or `13` (values sharing a factor with 26), and
it is true for `K = [[3, 3], [2, 5]]`. -/
theorem hills_is_valid_key_characterization (K : Mat2) :
    (is_valid_key K = true ↔
      ((0 ≤ K.a ∧ K.a ≤ 25) ∧ (0 ≤ K.b ∧ K.b ≤ 25) ∧
       (0 ≤ K.c ∧ K.c ≤ 25) ∧ (0 ≤ K.d ∧ K.d ≤ 25) ∧
       ∃ y : Int, ((K.det % 26) * y) % 26 = 1)) ∧
    (K.det % 26 = 0 ∨ K.det % 26 = 2 ∨ K.det % 26 = 4 ∨ K.det % 26 = 13 →
      is_valid_key K = false) ∧
    is_valid_key ⟨3, 3, 2, 5⟩ = true := by
  refine ⟨?_, ?_, by decide⟩
  · rw [is_valid_key_parts]
    constructor
    · rintro ⟨h1, h2, h3, h4, hv, ht⟩
      exact ⟨h1, h2, h3, h4,
        (exists_inverse_iff_table _ (emod26_nonneg _) (emod26_lt _)).mpr ht⟩
    · rintro ⟨h1, h2, h3, h4, hy⟩
      have ht := (exists_inverse_iff_table _ (emod26_nonneg _) (emod26_lt _)).mp hy
      refine ⟨h1, h2, h3, h4, ?_, ht⟩
      intro h0
      rw [h0] at ht
      exact ht table_zero
  · intro hdet
    cases hb : is_valid_key K with
    | false => rfl
    | true =>
      exfalso
      have hp := (is_valid_key_parts K).mp hb
      have ht := hp.2.2.2.2.2
      rcases hdet with h | h | h | h <;> rw [h] at ht <;> revert ht <;> decide

/-- Witness for C6 at the concrete key `[[13, 0], [0, 1]]` (determinant 13). -/
theorem hills_is_valid_key_characterization_witness :
    ((⟨13, 0, 0, 1⟩ : Mat2).det % 26 = 0 ∨ (⟨13, 0, 0, 1⟩ : Mat2).det % 26 = 2 ∨
     (⟨13, 0, 0, 1⟩ : Mat2).det % 26 = 4 ∨ (⟨13, 0, 0, 1⟩ : Mat2).det % 26 = 13) ∧
    is_valid_key ⟨13, 0, 0, 1⟩ = false :=
  ⟨by decide, (hills_is_valid_key_characterization ⟨13, 0, 0, 1⟩).2.1 (by decide)⟩

end Hills

namespace Hills

lemma invert_eq_of_valid (K : Mat2) (h : is_valid_key K = true) :
    invert K = some ⟨mod_26 (INV_MOD_26.get! (K.det % 26).toNat * K.d),
                     mod_26 (INV_MOD_26.get! (K.det % 26).toNat * (-K.b)),
                     mod_26 (INV_MOD_26.get! (K.det % 26).toNat * (-K.c)),
                     mod_26 (INV_MOD_26.get! (K.det % 26).toNat * K.a)⟩ := by
  have hp := (is_valid_key_parts K).mp h
  simp only [invert]
  rw [if_neg hp.2.2.2.2.1, if_neg hp.2.2.2.2.2]

lemma inv_det_mul (K : Mat2) (h : is_valid_key K = true) :
    ((INV_MOD_26.get! (K.det % 26).toNat : Int) : ZMod 26) *
      ((K.det : Int) : ZMod 26) = 1 := by
  have hp := (is_valid_key_parts K).mp h
  have ht := hp.2.2.2.2.2
  have hv0 : (0 : Int) ≤ K.det % 26 := emod26_nonneg _
  have hvlt : K.det % 26 < 26 := emod26_lt _
  have hvn : (K.det % 26).toNat < 26 := by omega
  have hvc : ((K.det % 26).toNat : Int) = K.det % 26 := Int.toNat_of_nonneg hv0
  have h1 := table_mul (K.det % 26).toNat hvn ht
  rw [hvc] at h1
  have h2 : ((INV_MOD_26.get! (K.det % 26).toNat * (K.det % 26) : Int) : ZMod 26) =
      ((1 : Int) : ZMod 26) := by
    rw [← cast_emod26 (INV_MOD_26.get! (K.det % 26).toNat * (K.det % 26)), h1]
  push_cast at h2
  rw [cast_emod26] at h2
  exact h2

end Hills

namespace Hills

lemma matMulMod_invert (K : Mat2) (h : is_valid_key K = true) :
    matMulMod K ⟨mod_26 (INV_MOD_26.get! (K.det % 26).toNat * K.d),
                 mod_26 (INV_MOD_26.get! (K.det % 26).toNat * (-K.b)),
                 mod_26 (INV_MOD_26.get! (K.det % 26).toNat * (-K.c)),
                 mod_26 (INV_MOD_26.get! (K.det % 26).toNat * K.a)⟩ = ⟨1, 0, 0, 1⟩ := by
  have key := inv_det_mul K h
  have hdet : ((K.det : Int) : ZMod 26) =
      (K.a : ZMod 26) * (K.d : ZMod 26) - (K.b : ZMod 26) * (K.c : ZMod 26) := by
    unfold Mat2.det
    push_cast
    ring
  rw [hdet] at key
  unfold matMulMod
  have e1 : mod_26 (K.a * mod_26 (INV_MOD_26.get! (K.det % 26).toNat * K.d) +
      K.b * mod_26 (INV_MOD_26.get! (K.det % 26).toNat * (-K.c))) = 1 := by
    apply mod_26_eq_of_cast (by norm_num) (by norm_num)
    push_cast [mod_26, cast_emod26]
    linear_combination key
  have e2 : mod_26 (K.a * mod_26 (INV_MOD_26.get! (K.det % 26).toNat * (-K.b)) +
      K.b * mod_26 (INV_MOD_26.get! (K.det % 26).toNat * K.a)) = 0 := by
    apply mod_26_eq_of_cast (by norm_num) (by norm_num)
    push_cast [mod_26, cast_emod26]
    ring
  have e3 : mod_26 (K.c * mod_26 (INV_MOD_26.get! (K.det % 26).toNat * K.d) +
      K.d * mod_26 (INV_MOD_26.get! (K.det % 26).toNat * (-K.c))) = 0 := by
    apply mod_26_eq_of_cast (by norm_num) (by norm_num)
    push_cast [mod_26, cast_emod26]
    ring
  have e4 : mod_26 (K.c * mod_26 (INV_MOD_26.get! (K.det % 26).toNat * (-K.b)) +
      K.d * mod_26 (INV_MOD_26.get! (K.det % 26).toNat * K.a)) = 1 := by
    apply mod_26_eq_of_cast (by norm_num) (by norm_num)
    push_cast [mod_26, cast_emod26]
    linear_combination key
  rw [e1, e2, e3, e4]

end Hills

namespace Hills

lemma invert_eq (M : Mat2) (hv : M.det % 26 ≠ 0)
    (ht : INV_MOD_26.get! (M.det % 26).toNat ≠ -1) :
    invert M = some ⟨mod_26 (INV_MOD_26.get! (M.det % 26).toNat * M.d),
                     mod_26 (INV_MOD_26.get! (M.det % 26).toNat * (-M.b)),
                     mod_26 (INV_MOD_26.get! (M.det % 26).toNat * (-M.c)),
                     mod_26 (INV_MOD_26.get! (M.det % 26).toNat * M.a)⟩ := by
  simp only [invert]
  rw [if_neg hv, if_neg ht]

lemma det_cast (M : Mat2) : ((M.det : Int) : ZMod 26) =
    (M.a : ZMod 26) * (M.d : ZMod 26) - (M.b : ZMod 26) * (M.c : ZMod 26) := by
  unfold Mat2.det
  push_cast
  ring

lemma invert_invert (K : Mat2) (h : is_valid_key K = true) :
    ∀ Ki, invert K = some Ki → invert Ki = some K := by
  intro Ki hKi
  rw [invert_eq_of_valid K h] at hKi
  obtain rfl : Ki = ⟨mod_26 (INV_MOD_26.get! (K.det % 26).toNat * K.d),
                     mod_26 (INV_MOD_26.get! (K.det % 26).toNat * (-K.b)),
                     mod_26 (INV_MOD_26.get! (K.det % 26).toNat * (-K.c)),
                     mod_26 (INV_MOD_26.get! (K.det % 26).toNat * K.a)⟩ :=
    (Option.some_inj.mp hKi).symm
  obtain ⟨⟨ha0, ha1⟩, ⟨hb0, hb1⟩, ⟨hc0, hc1⟩, ⟨hd0, hd1⟩, hvne, ht⟩ :=
    (is_valid_key_parts K).mp h
  have key := inv_det_mul K h
  have hv0 : (0 : Int) ≤ K.det % 26 := emod26_nonneg _
  have hvlt : K.det % 26 < 26 := emod26_lt _
  have hvn : (K.det % 26).toNat < 26 := by omega
  have hvc : ((K.det % 26).toNat : Int) = K.det % 26 := Int.toNat_of_nonneg hv0
  have hmb := table_bounds (K.det % 26).toNat hvn ht
  have hinvol := table_invol (K.det % 26).toNat hvn ht
  rw [hvc] at hinvol
  set m : Int := INV_MOD_26.get! (K.det % 26).toNat with hm
  have hkey2 : (m : ZMod 26) * ((K.det % 26 : Int) : ZMod 26) = 1 := by
    rw [cast_emod26]
    exact key
  have hdet2 : ((K.det : Int) : ZMod 26) =
      (K.a : ZMod 26) * (K.d : ZMod 26) - (K.b : ZMod 26) * (K.c : ZMod 26) :=
    det_cast K
  -- determinant of the inverse matrix is congruent to m mod 26
  have hdetKi : (((Mat2.det ⟨mod_26 (m * K.d), mod_26 (m * (-K.b)),
      mod_26 (m * (-K.c)), mod_26 (m * K.a)⟩ : Int)) : ZMod 26) = (m : ZMod 26) := by
    rw [det_cast]
    show ((mod_26 (m * K.d) : Int) : ZMod 26) * ((mod_26 (m * K.a) : Int) : ZMod 26) -
        ((mod_26 (m * (-K.b)) : Int) : ZMod 26) * ((mod_26 (m * (-K.c)) : Int) : ZMod 26) =
        (m : ZMod 26)
    push_cast [mod_26, cast_emod26]
    have key3 : (m : ZMod 26) * ((K.det : Int) : ZMod 26) = 1 := key
    rw [hdet2] at key3
    linear_combination (m : ZMod 26) * key3
  have hv2 : Mat2.det ⟨mod_26 (m * K.d), mod_26 (m * (-K.b)),
      mod_26 (m * (-K.c)), mod_26 (m * K.a)⟩ % 26 = m := by
    apply mod_26_eq_of_cast (by omega) (by omega)
    rw [hdetKi]
  have hv2ne : Mat2.det ⟨mod_26 (m * K.d), mod_26 (m * (-K.b)),
      mod_26 (m * (-K.c)), mod_26 (m * K.a)⟩ % 26 ≠ 0 := by omega
  have ht2 : INV_MOD_26.get! ((Mat2.det ⟨mod_26 (m * K.d), mod_26 (m * (-K.b)),
      mod_26 (m * (-K.c)), mod_26 (m * K.a)⟩ % 26)).toNat ≠ -1 := by
    rw [hv2, hinvol]
    omega
  rw [invert_eq _ hv2ne ht2, hv2, hinvol]
  -- now each entry of the computed inverse equals the entry of K
  have hvm : ((K.det % 26 : Int) : ZMod 26) * (m : ZMod 26) = 1 := by
    rw [mul_comm]; exact hkey2
  have e1 : mod_26 ((K.det % 26) * mod_26 (m * K.a)) = K.a := by
    apply mod_26_eq_of_cast (by omega) (by omega)
    push_cast [mod_26, cast_emod26]
    linear_combination (K.a : ZMod 26) * key
  have e2 : mod_26 ((K.det % 26) * (-(mod_26 (m * (-K.b))))) = K.b := by
    apply mod_26_eq_of_cast (by omega) (by omega)
    push_cast [mod_26, cast_emod26]
    linear_combination (K.b : ZMod 26) * key
  have e3 : mod_26 ((K.det % 26) * (-(mod_26 (m * (-K.c))))) = K.c := by
    apply mod_26_eq_of_cast (by omega) (by omega)
    push_cast [mod_26, cast_emod26]
    linear_combination (K.c : ZMod 26) * key
  have e4 : mod_26 ((K.det % 26) * mod_26 (m * K.d)) = K.d := by
    apply mod_26_eq_of_cast (by omega) (by omega)
    push_cast [mod_26, cast_emod26]
    linear_combination (K.d : ZMod 26) * key
  show some (⟨mod_26 ((K.det % 26) * mod_26 (m * K.a)),
      mod_26 ((K.det % 26) * (-(mod_26 (m * (-K.b))))),
      mod_26 ((K.det % 26) * (-(mod_26 (m * (-K.c))))),
      mod_26 ((K.det % 26) * mod_26 (m * K.d))⟩ : Mat2) = some K
  rw [e1, e2, e3, e4]

end Hills

namespace Hills

lemma invert_none_of_no_inverse (M : Mat2) (hno : ¬ ∃ y : Int, (M.det * y) % 26 = 1) :
    invert M = none := by
  by_cases h0 : M.det % 26 = 0
  · simp only [invert]
    rw [if_pos h0]
  · by_cases ht : INV_MOD_26.get! (M.det % 26).toNat = -1
    · simp only [invert]
      rw [if_neg h0, if_pos ht]
    · exfalso
      apply hno
      obtain ⟨y, hy⟩ :=
        (exists_inverse_iff_table (M.det % 26) (emod26_nonneg _) (emod26_lt _)).mpr ht
      refine ⟨y, ?_⟩
      have e1 : (M.det * y) % 26 = ((M.det % 26) * (y % 26)) % 26 := Int.mul_emod _ _ _
      have e2 : ((M.det % 26) * y) % 26 = ((M.det % 26 % 26) * (y % 26)) % 26 :=
        Int.mul_emod _ _ _
      have e3 : M.det % 26 % 26 = M.det % 26 := Int.emod_emod_of_dvd M.det dvd_rfl
      rw [e3] at e2
      omega

/-- Claim C7: for every valid key `K`, `invert K` exists, multiplying `K` with
it mod 26 gives the identity matrix, and inverting twice returns `K`; and for
any matrix whose determinant has no multiplicative inverse mod 26, `invert`
returns `None`. -/
theorem hills_invert_correct (K : Mat2) (h : is_valid_key K = true) :
    ∃ Ki, invert K = some Ki ∧
      matMulMod K Ki = ⟨1, 0, 0, 1⟩ ∧
      invert Ki = some K ∧
      (∀ M : Mat2, (¬ ∃ y : Int, (M.det * y) % 26 = 1) → invert M = none) := by
  refine ⟨_, invert_eq_of_valid K h, matMulMod_invert K h, ?_, ?_⟩
  · exact invert_invert K h _ (invert_eq_of_valid K h)
  · exact invert_none_of_no_inverse

/-- Witness for C7 at the valid key `[[3, 3], [2, 5]]`. -/
theorem hills_invert_correct_witness :
    is_valid_key ⟨3, 3, 2, 5⟩ = true ∧
    ∃ Ki, invert ⟨3, 3, 2, 5⟩ = some Ki ∧
      matMulMod ⟨3, 3, 2, 5⟩ Ki = ⟨1, 0, 0, 1⟩ ∧
      invert Ki = some ⟨3, 3, 2, 5⟩ ∧
      (∀ M : Mat2, (¬ ∃ y : Int, (M.det * y) % 26 = 1) → invert M = none) :=
  ⟨by decide, hills_invert_correct ⟨3, 3, 2, 5⟩ (by decide)⟩

end Hills

namespace Hills

lemma extend_text_even (P : List Int) : (extend_text P).length % 2 = 0 := by
  unfold extend_text
  split_ifs with h
  · simp only [List.length_append, List.length_replicate]
    omega
  · omega

lemma extend_text_lower (P : List Int) (hP : ∀ c ∈ P, 97 ≤ c ∧ c ≤ 122) :
    ∀ c ∈ extend_text P, 97 ≤ c ∧ c ≤ 122 := by
  unfold extend_text
  split_ifs with h
  · intro c hc
    rcases List.mem_append.mp hc with hc | hc
    · exact hP c hc
    · have := List.eq_of_mem_replicate hc
      omega
  · exact hP

lemma hillApply_roundtrip (K Ki : Mat2)
    (h11 : (Ki.a : ZMod 26) * (K.a : ZMod 26) + (Ki.b : ZMod 26) * (K.c : ZMod 26) = 1)
    (h12 : (Ki.a : ZMod 26) * (K.b : ZMod 26) + (Ki.b : ZMod 26) * (K.d : ZMod 26) = 0)
    (h21 : (Ki.c : ZMod 26) * (K.a : ZMod 26) + (Ki.d : ZMod 26) * (K.c : ZMod 26) = 0)
    (h22 : (Ki.c : ZMod 26) * (K.b : ZMod 26) + (Ki.d : ZMod 26) * (K.d : ZMod 26) = 1) :
    ∀ n (l : List Int), l.length ≤ n → l.length % 2 = 0 →
      (∀ c ∈ l, 97 ≤ c ∧ c ≤ 122) →
      ∃ ct, hillApply K l = some ct ∧ hillApply Ki ct = some l := by
  intro n
  induction n with
  | zero =>
    intro l hlen _ _
    have : l = [] := List.eq_nil_of_length_eq_zero (by omega)
    subst this
    exact ⟨[], rfl, rfl⟩
  | succ n ih =>
    intro l hlen heven hlow
    match l with
    | [] => exact ⟨[], rfl, rfl⟩
    | [x] => simp at heven
    | x :: y :: rest =>
      have hrlen : rest.length ≤ n := by
        simp only [List.length_cons] at hlen
        omega
      have hreven : rest.length % 2 = 0 := by
        simp only [List.length_cons] at heven
        omega
      have hrlow : ∀ c ∈ rest, 97 ≤ c ∧ c ≤ 122 := fun c hc =>
        hlow c (by simp [hc])
      obtain ⟨ct, h1, h2⟩ := ih rest hrlen hreven hrlow
      have hx := hlow x (by simp)
      have hy := hlow y (by simp)
      refine ⟨(mod_26 (K.a * (x - 97) + K.b * (y - 97)) + 97) ::
              (mod_26 (K.c * (x - 97) + K.d * (y - 97)) + 97) :: ct, ?_, ?_⟩
      · simp only [hillApply, h1]
      · have d1 : mod_26 (Ki.a * ((mod_26 (K.a * (x - 97) + K.b * (y - 97)) + 97) - 97) +
            Ki.b * ((mod_26 (K.c * (x - 97) + K.d * (y - 97)) + 97) - 97)) = x - 97 := by
          apply mod_26_eq_of_cast (by omega) (by omega)
          push_cast [mod_26, cast_emod26]
          linear_combination ((x : ZMod 26) - 97) * h11 + ((y : ZMod 26) - 97) * h12
        have d2 : mod_26 (Ki.c * ((mod_26 (K.a * (x - 97) + K.b * (y - 97)) + 97) - 97) +
            Ki.d * ((mod_26 (K.c * (x - 97) + K.d * (y - 97)) + 97) - 97)) = y - 97 := by
          apply mod_26_eq_of_cast (by omega) (by omega)
          push_cast [mod_26, cast_emod26]
          linear_combination ((x : ZMod 26) - 97) * h21 + ((y : ZMod 26) - 97) * h22
        have happ2 : hillApply Ki ((mod_26 (K.a * (x - 97) + K.b * (y - 97)) + 97) ::
            (mod_26 (K.c * (x - 97) + K.d * (y - 97)) + 97) :: ct) =
            some ((mod_26 (Ki.a * ((mod_26 (K.a * (x - 97) + K.b * (y - 97)) + 97) - 97) +
                    Ki.b * ((mod_26 (K.c * (x - 97) + K.d * (y - 97)) + 97) - 97)) + 97) ::
                  (mod_26 (Ki.c * ((mod_26 (K.a * (x - 97) + K.b * (y - 97)) + 97) - 97) +
                    Ki.d * ((mod_26 (K.c * (x - 97) + K.d * (y - 97)) + 97) - 97)) + 97) ::
                  rest) := by
          simp only [hillApply, h2]
        rw [happ2, d1, d2]
        have ex : x - 97 + 97 = x := by omega
        have ey : y - 97 + 97 = y := by omega
        rw [ex, ey]

end Hills

namespace Hills

/-- Claim C2: for every valid key `K` and lowercase alphabetic plain text `P`,
decrypting the encryption of `P` with the inverted key recovers
`extend_text P` (the plain text padded with `'x'` to even length). -/
theorem hills_roundtrip (K : Mat2) (P : List Int) (hK : is_valid_key K = true)
    (hP : ∀ c ∈ P, 97 ≤ c ∧ c ≤ 122) :
    ∃ Ki ct, invert K = some Ki ∧ encrypt P K = some ct ∧
      decrypt ct Ki = some (extend_text P) := by
  have key := inv_det_mul K hK
  rw [det_cast K] at key
  set m : Int := INV_MOD_26.get! (K.det % 26).toNat with hm
  have h11 : ((mod_26 (m * K.d) : Int) : ZMod 26) * (K.a : ZMod 26) +
      ((mod_26 (m * (-K.b)) : Int) : ZMod 26) * (K.c : ZMod 26) = 1 := by
    push_cast [mod_26, cast_emod26]
    linear_combination key
  have h12 : ((mod_26 (m * K.d) : Int) : ZMod 26) * (K.b : ZMod 26) +
      ((mod_26 (m * (-K.b)) : Int) : ZMod 26) * (K.d : ZMod 26) = 0 := by
    push_cast [mod_26, cast_emod26]
    ring
  have h21 : ((mod_26 (m * (-K.c)) : Int) : ZMod 26) * (K.a : ZMod 26) +
      ((mod_26 (m * K.a) : Int) : ZMod 26) * (K.c : ZMod 26) = 0 := by
    push_cast [mod_26, cast_emod26]
    ring
  have h22 : ((mod_26 (m * (-K.c)) : Int) : ZMod 26) * (K.b : ZMod 26) +
      ((mod_26 (m * K.a) : Int) : ZMod 26) * (K.d : ZMod 26) = 1 := by
    push_cast [mod_26, cast_emod26]
    linear_combination key
  obtain ⟨ct, hct1, hct2⟩ :=
    hillApply_roundtrip K
      ⟨mod_26 (m * K.d), mod_26 (m * (-K.b)), mod_26 (m * (-K.c)), mod_26 (m * K.a)⟩
      h11 h12 h21 h22 (extend_text P).length (extend_text P) le_rfl
      (extend_text_even P) (extend_text_lower P hP)
  exact ⟨_, ct, invert_eq_of_valid K hK, hct1, hct2⟩

/-- Witness for C2 at the key `[[3, 3], [2, 5]]` and plain text `"hi"`. -/
theorem hills_roundtrip_witness :
    is_valid_key ⟨3, 3, 2, 5⟩ = true ∧
    (∀ c ∈ ([104, 105] : List Int), 97 ≤ c ∧ c ≤ 122) ∧
    ∃ Ki ct, invert ⟨3, 3, 2, 5⟩ = some Ki ∧
      encrypt [104, 105] ⟨3, 3, 2, 5⟩ = some ct ∧
      decrypt ct Ki = some (extend_text [104, 105]) :=
  ⟨by decide, by decide, hills_roundtrip ⟨3, 3, 2, 5⟩ [104, 105] (by decide) (by decide)⟩

end Hills

namespace Hills

lemma flatMap_length_const {α β : Type} (f : α → List β) (c : Nat) :
    ∀ l : List α, (∀ a ∈ l, (f a).length = c) → (l.flatMap f).length = l.length * c := by
  intro l
  induction l with
  | nil => simp
  | cons a t ih =>
    intro h
    simp only [List.flatMap_cons, List.length_append, List.length_cons]
    rw [h a (by simp), ih (fun x hx => h x (by simp [hx]))]
    ring

lemma flatMap_getElem_const {α β : Type} (f : α → List β) (c : Nat) :
    ∀ (l : List α) (q r : Nat), r < c → (∀ a ∈ l, (f a).length = c) →
      (l.flatMap f)[q * c + r]? = (l[q]?).bind fun a => (f a)[r]? := by
  intro l
  induction l with
  | nil => simp
  | cons a t ih =>
    intro q r hr hlen
    cases q with
    | zero =>
      simp only [List.flatMap_cons, Nat.zero_mul, Nat.zero_add]
      rw [List.getElem?_append_left (by rw [hlen a (by simp)]; exact hr)]
      simp
    | succ q =>
      simp only [List.flatMap_cons]
      have hceq : (q + 1) * c + r = c + (q * c + r) := by ring
      rw [hceq, List.getElem?_append_right (by rw [hlen a (by simp)]; omega)]
      rw [hlen a (by simp)]
      have hsub : c + (q * c + r) - c = q * c + r := by omega
      rw [hsub, ih q r hr (fun x hx => hlen x (by simp [hx]))]
      simp

end Hills

namespace Hills

lemma keyCandidates_len1 (i j k : Nat) :
    ((List.range 26).map fun (l : Nat) => (⟨(i : Int), (j : Int), (k : Int), (l : Int)⟩ : Mat2)).length
      = 26 := by
  simp

lemma keyCandidates_len2 (i j : Nat) :
    (((List.range 26).flatMap fun (k : Nat) => (List.range 26).map fun (l : Nat) =>
      (⟨(i : Int), (j : Int), (k : Int), (l : Int)⟩ : Mat2)).length) = 676 := by
  rw [flatMap_length_const _ 26 _ (fun a _ => keyCandidates_len1 i j a)]
  simp

lemma keyCandidates_len3 (i : Nat) :
    (((List.range 26).flatMap fun (j : Nat) => (List.range 26).flatMap fun (k : Nat) =>
      (List.range 26).map fun (l : Nat) =>
      (⟨(i : Int), (j : Int), (k : Int), (l : Int)⟩ : Mat2)).length) = 17576 := by
  rw [flatMap_length_const _ 676 _ (fun a _ => keyCandidates_len2 i a)]
  simp

lemma keyCandidates_length : keyCandidates.length = 26 ^ 4 := by
  unfold keyCandidates
  rw [flatMap_length_const _ 17576 _ (fun a _ => keyCandidates_len3 a)]
  simp

lemma keyCandidates_getElem (i j k l : Nat) (hi : i < 26) (hj : j < 26)
    (hk : k < 26) (hl : l < 26) :
    keyCandidates[((i * 26 + j) * 26 + k) * 26 + l]? =
      some ⟨(i : Int), (j : Int), (k : Int), (l : Int)⟩ := by
  unfold keyCandidates
  have e1 : ((i * 26 + j) * 26 + k) * 26 + l = i * 17576 + ((j * 26 + k) * 26 + l) := by
    ring
  rw [e1, flatMap_getElem_const _ 17576 _ i _ (by omega)
        (fun a _ => keyCandidates_len3 a),
      List.getElem?_range hi]
  simp only [Option.some_bind]
  have e2 : (j * 26 + k) * 26 + l = j * 676 + (k * 26 + l) := by ring
  rw [e2, flatMap_getElem_const _ 676 _ j _ (by omega)
        (fun a _ => keyCandidates_len2 i a),
      List.getElem?_range hj]
  simp only [Option.some_bind]
  rw [flatMap_getElem_const _ 26 _ k _ hl (fun a _ => keyCandidates_len1 i j a),
      List.getElem?_range hk]
  simp only [Option.some_bind]
  rw [List.getElem?_map, List.getElem?_range hl]
  simp

end Hills

namespace Hills

lemma brute_force_go_some (ct pt : List Int) :
    ∀ cands K, brute_force_go ct pt cands = some (some K) →
      ∃ l₁ l₂, cands = l₁ ++ K :: l₂ ∧ is_valid_key K = true ∧
        decrypt ct K = some pt ∧
        ∀ K₀ ∈ l₁, ¬ (is_valid_key K₀ = true ∧ decrypt ct K₀ = some pt) := by
  intro cands
  induction cands with
  | nil =>
    intro K h
    simp [brute_force_go] at h
  | cons A t ih =>
    intro K h
    rw [brute_force_go] at h
    by_cases hv : is_valid_key A = true
    · rw [if_pos hv] at h
      cases hd : decrypt ct A with
      | none =>
        simp only [hd] at h
        exact absurd h (by simp)
      | some d =>
        simp only [hd] at h
        by_cases hdp : d = pt
        · rw [if_pos hdp] at h
          obtain rfl : A = K := by
            injection h with h2
            injection h2
          exact ⟨[], t, by simp, hv, by rw [hd, hdp], by simp⟩
        · rw [if_neg hdp] at h
          obtain ⟨l₁, l₂, rfl, hK1, hK2, hK3⟩ := ih K h
          refine ⟨A :: l₁, l₂, by simp, hK1, hK2, ?_⟩
          intro K₀ hK₀
          rcases List.mem_cons.mp hK₀ with rfl | hK₀
          · rintro ⟨-, hc⟩
            simp only [hd] at hc
            injection hc with hc2
            exact hdp hc2
          · exact hK3 K₀ hK₀
    · rw [if_neg hv] at h
      obtain ⟨l₁, l₂, rfl, hK1, hK2, hK3⟩ := ih K h
      refine ⟨A :: l₁, l₂, by simp, hK1, hK2, ?_⟩
      intro K₀ hK₀
      rcases List.mem_cons.mp hK₀ with rfl | hK₀
      · rintro ⟨hc, -⟩
        exact hv hc
      · exact hK3 K₀ hK₀

lemma brute_force_go_none (ct pt : List Int) :
    ∀ cands, brute_force_go ct pt cands = some none →
      ∀ K ∈ cands, ¬ (is_valid_key K = true ∧ decrypt ct K = some pt) := by
  intro cands
  induction cands with
  | nil =>
    intro _ K hK
    simp at hK
  | cons A t ih =>
    intro h K hK
    rw [brute_force_go] at h
    by_cases hv : is_valid_key A = true
    · rw [if_pos hv] at h
      cases hd : decrypt ct A with
      | none =>
        simp only [hd] at h
        exact absurd h (by simp)
      | some d =>
        simp only [hd] at h
        by_cases hdp : d = pt
        · rw [if_pos hdp] at h
          exact absurd h (by simp)
        · rw [if_neg hdp] at h
          rcases List.mem_cons.mp hK with rfl | hK₀
          · rintro ⟨-, hc⟩
            simp only [hd] at hc
            injection hc with hc2
            exact hdp hc2
          · exact ih h K hK₀
    · rw [if_neg hv] at h
      rcases List.mem_cons.mp hK with rfl | hK₀
      · rintro ⟨hc, -⟩
        exact hv hc
      · exact ih h K hK₀

end Hills

namespace Hills

/-- Claim C1: `brute_force` enumerates all `26 ^ 4` candidate matrices in
row-major lexicographic order (the nested index formula below), skips
candidates failing `is_valid_key`, returns the first valid candidate whose
decryption of the cipher text equals the plain text, and returns `None`
(`some none` in the model, the source's `return None`) only when no candidate
in the full enumeration matches. -/
theorem hills_brute_force_first_match (ct pt : List Int) (K : Mat2)
    (hfound : brute_force ct pt = some (some K)) :
    keyCandidates.length = 26 ^ 4 ∧
    (∀ i j k l : Nat, i < 26 → j < 26 → k < 26 → l < 26 →
      keyCandidates[((i * 26 + j) * 26 + k) * 26 + l]? =
        some ⟨(i : Int), (j : Int), (k : Int), (l : Int)⟩) ∧
    (∃ l₁ l₂, keyCandidates = l₁ ++ K :: l₂ ∧
      is_valid_key K = true ∧ decrypt ct K = some pt ∧
      ∀ K₀ ∈ l₁, ¬ (is_valid_key K₀ = true ∧ decrypt ct K₀ = some pt)) ∧
    (∀ ct₂ pt₂ : List Int, brute_force ct₂ pt₂ = some none →
      ∀ K₀ ∈ keyCandidates, ¬ (is_valid_key K₀ = true ∧ decrypt ct₂ K₀ = some pt₂)) := by
  refine ⟨keyCandidates_length,
    fun i j k l hi hj hk hl => keyCandidates_getElem i j k l hi hj hk hl,
    brute_force_go_some ct pt keyCandidates K hfound,
    fun ct₂ pt₂ hnone => brute_force_go_none ct₂ pt₂ keyCandidates hnone⟩

end Hills

set_option maxRecDepth 10000 in
/-- Witness for C1: on cipher text `"ab"` and plain text `"ba"`, the search
finds the first valid key `[[0, 1], [1, 0]]`. -/
theorem hills_brute_force_first_match_witness :
    Hills.brute_force [97, 98] [98, 97] = some (some ⟨0, 1, 1, 0⟩) ∧
    (Hills.keyCandidates.length = 26 ^ 4 ∧
     (∀ i j k l : Nat, i < 26 → j < 26 → k < 26 → l < 26 →
       Hills.keyCandidates[((i * 26 + j) * 26 + k) * 26 + l]? =
         some ⟨(i : Int), (j : Int), (k : Int), (l : Int)⟩) ∧
     (∃ l₁ l₂, Hills.keyCandidates = l₁ ++ (⟨0, 1, 1, 0⟩ : Hills.Mat2) :: l₂ ∧
       Hills.is_valid_key ⟨0, 1, 1, 0⟩ = true ∧
       Hills.decrypt [97, 98] ⟨0, 1, 1, 0⟩ = some [98, 97] ∧
       ∀ K₀ ∈ l₁, ¬ (Hills.is_valid_key K₀ = true ∧
         Hills.decrypt [97, 98] K₀ = some [98, 97])) ∧
     (∀ ct₂ pt₂ : List Int, Hills.brute_force ct₂ pt₂ = some none →
       ∀ K₀ ∈ Hills.keyCandidates,
         ¬ (Hills.is_valid_key K₀ = true ∧ Hills.decrypt ct₂ K₀ = some pt₂))) :=
  ⟨by decide, Hills.hills_brute_force_first_match [97, 98] [98, 97] ⟨0, 1, 1, 0⟩ (by decide)⟩



namespace Vigenere

/-- Claim C3 (code bug): on the cipher text `"abcdefghijabcd"`, which contains
the exact 4-character substring `"abcd"` repeated at distance 10,
`kasiski_test` raises `TypeError` (`len(indices) / 2` is a Python 3 float
handed to `range`) instead of returning a set containing 10 or a divisor of
10; only on inputs with no repeated substring of length at least 3 does it
return, and then the result is `None`. -/
theorem vig_kasiski_raises_on_repeats :
    kasiski_test [97, 98, 99, 100, 101, 102, 103, 104, 105, 106, 97, 98, 99, 100] =
      Except.error PyErr.typeError ∧
    kasiski_test [97, 98, 99, 97, 98, 99] = Except.error PyErr.typeError ∧
    kasiski_test [97, 98, 99, 100] = Except.ok none := by
  refine ⟨by decide, by decide, by decide⟩

/-- Claim C4 (code bug): with cipher text `"aaaa"` the Kasiski test finds no
repeated substring (non-overlapping count of `"aaa"` is 1), the index of
coincidence is 1 and the key-length estimate `r` is positive, so the source
assigns `probable_lengths = math.floor(r)` — an `int` — and the following
`for` statement raises `TypeError` instead of returning; with cipher text
`"abcd"` the estimate is negative and `brute_force` returns `None` as the
claim describes. -/
theorem vig_brute_force_fallback_raises :
    brute_force [97, 97, 97, 97] [97, 97, 97, 97] = Except.error PyErr.typeError ∧
    brute_force [97, 98, 99, 100] [97, 98, 99, 100] = Except.ok none := by
  refine ⟨by with_unfolding_all rfl, by with_unfolding_all rfl⟩

end Vigenere

namespace Vigenere

lemma decryptGo_encryptGo (key : List Int) :
    ∀ (l : List Int) (i : Nat), (∀ c ∈ l, 97 ≤ c ∧ c ≤ 122) →
      decryptGo key i (encryptGo key i l) = l := by
  intro l
  induction l with
  | nil => intro i _; rfl
  | cons c rest ih =>
    intro i hlow
    have hc := hlow c (by simp)
    simp only [encryptGo, decryptGo, List.cons.injEq]
    constructor
    · simp only [mod_26]
      omega
    · exact ih (i + 1) (fun x hx => hlow x (by simp [hx]))

lemma encryptGo_length (key : List Int) :
    ∀ (l : List Int) (i : Nat), (encryptGo key i l).length = l.length := by
  intro l
  induction l with
  | nil => intro i; rfl
  | cons c rest ih =>
    intro i
    simp only [encryptGo, List.length_cons, ih]

/-- Claim C8 amended: for every nonempty keyword and every lowercase
alphabetic plain text, decrypting the encryption with the same keyword
recovers the plain text exactly. -/
theorem vig_roundtrip (P key : List Int) (hk : key ≠ [])
    (hP : ∀ c ∈ P, 97 ≤ c ∧ c ≤ 122) :
    (encrypt P key).bind (fun ct => decrypt ct key) = Except.ok P := by
  match P with
  | [] =>
    simp [encrypt, decrypt, Except.bind]
  | c :: rest =>
    have hkl : key.length ≠ 0 := fun h => hk (List.eq_nil_of_length_eq_zero h)
    have henc : encrypt (c :: rest) key = Except.ok (encryptGo key 0 (c :: rest)) := by
      unfold encrypt
      rw [if_neg (by simp), if_neg hkl]
    rw [henc]
    show decrypt (encryptGo key 0 (c :: rest)) key = Except.ok (c :: rest)
    have hlen : (encryptGo key 0 (c :: rest)).length = rest.length + 1 :=
      encryptGo_length key (c :: rest) 0
    unfold decrypt
    rw [if_neg (by omega), if_neg hkl]
    rw [decryptGo_encryptGo key (c :: rest) 0 hP]

/-- Counterexample for C8 as stated: with the non-lowercase plain text `"A"`
(code 65) and keyword `"a"`, the round trip returns `"u"` (code 117), not
`"A"`. -/
theorem vig_roundtrip_cex :
    ((encrypt [65] [97]).bind (fun ct => decrypt ct [97]) = Except.ok [65]) ↔ False := by
  constructor
  · intro h
    have : ((117 : Int)) = 65 := by
      have h2 : (encrypt [65] [97]).bind (fun ct => decrypt ct [97]) =
          Except.ok [117] := by decide
      rw [h2] at h
      injection h with h3
      injection h3
    omega
  · exact False.elim

/-- Witness for the amended C8 at keyword `"key"` and plain text `"hello"`. -/
theorem vig_roundtrip_witness :
    ([107, 101, 121] : List Int) ≠ [] ∧
    (encrypt [104, 101, 108, 108, 111] [107, 101, 121]).bind
      (fun ct => decrypt ct [107, 101, 121]) = Except.ok [104, 101, 108, 108, 111] :=
  ⟨by decide, vig_roundtrip [104, 101, 108, 108, 111] [107, 101, 121]
    (by decide) (by decide)⟩

end Vigenere

namespace Vigenere

lemma sum_set_succ : ∀ (l : List Nat) (i : Nat), i < l.length →
    (l.set i (l.get! i + 1)).sum = l.sum + 1 := by
  intro l
  induction l with
  | nil =>
    intro i h
    simp at h
  | cons a t ih =>
    intro i h
    cases i with
    | zero =>
      simp only [List.set, List.get!, List.sum_cons]
      omega
    | succ n =>
      have hn : n < t.length := by simpa using h
      simp only [List.set, List.get!, List.sum_cons, ih n hn]
      omega

lemma af_go_length : ∀ (ct : List Int) (acc : List Nat), acc.length = 26 →
    (ct.foldl (fun freq c =>
      if 97 ≤ c ∧ c ≤ 122 then freq.set (c - 97).toNat (freq.get! (c - 97).toNat + 1)
      else freq) acc).length = 26 := by
  intro ct
  induction ct with
  | nil => intro acc h; exact h
  | cons c rest ih =>
    intro acc h
    simp only [List.foldl_cons]
    apply ih
    split_ifs with hc
    · simp [h]
    · exact h

lemma af_go_sum : ∀ (ct : List Int) (acc : List Nat), acc.length = 26 →
    (ct.foldl (fun freq c =>
      if 97 ≤ c ∧ c ≤ 122 then freq.set (c - 97).toNat (freq.get! (c - 97).toNat + 1)
      else freq) acc).sum ≤ acc.sum + ct.length := by
  intro ct
  induction ct with
  | nil => intro acc _; simp
  | cons c rest ih =>
    intro acc h
    simp only [List.foldl_cons, List.length_cons]
    split_ifs with hc
    · have hidx : (c - 97).toNat < acc.length := by omega
      have hlen2 : (acc.set (c - 97).toNat (acc.get! (c - 97).toNat + 1)).length = 26 := by
        simp [h]
      have := ih (acc.set (c - 97).toNat (acc.get! (c - 97).toNat + 1)) hlen2
      rw [sum_set_succ acc (c - 97).toNat hidx] at this
      omega
    · have := ih acc h
      omega

lemma analyze_frequency_length (ct : List Int) : (analyze_frequency ct).length = 26 :=
  af_go_length ct (List.replicate 26 0) (by simp)

lemma analyze_frequency_sum_le (ct : List Int) : (analyze_frequency ct).sum ≤ ct.length := by
  have h := af_go_sum ct (List.replicate 26 0) (by simp)
  have hz : (List.replicate 26 (0 : Nat)).sum = 0 := by simp
  unfold analyze_frequency
  omega

lemma numer_le (L : List Nat) :
    ((L.map fun n => n * (n - 1)).sum) ≤ L.sum * (L.sum - 1) := by
  induction L with
  | nil => simp
  | cons a t ih =>
    simp only [List.map_cons, List.sum_cons]
    have h1 : a * (a - 1) ≤ a * (a + t.sum - 1) := Nat.mul_le_mul_left a (by omega)
    have h3 : t.sum * (t.sum - 1) ≤ t.sum * (a + t.sum - 1) :=
      Nat.mul_le_mul_left t.sum (by omega)
    calc a * (a - 1) + (t.map fun n => n * (n - 1)).sum
        ≤ a * (a + t.sum - 1) + t.sum * (a + t.sum - 1) :=
          Nat.add_le_add h1 (le_trans ih h3)
      _ = (a + t.sum) * (a + t.sum - 1) := (Nat.add_mul a t.sum _).symm

lemma mul_pred_mono {a b : Nat} (h : a ≤ b) : a * (a - 1) ≤ b * (b - 1) :=
  Nat.mul_le_mul h (by omega)

end Vigenere

namespace Vigenere

/-- Claim C5 amended: `calculate_IC` returns
`Σ nᵢ(nᵢ−1) / (N(N−1))`, a value in `[0, 1]`, for every input whose
space-stripped length `N` is at least 2; it returns `0.0` for `N = 0`; but
for `N = 1` the guard misses and the division by `N(N−1) = 0` raises
`ZeroDivisionError`. -/
theorem vig_calculate_IC_amended (text : List Int) :
    (((stripSpaces text).map pyLower).length = 0 → calculate_IC text = Except.ok 0) ∧
    (((stripSpaces text).map pyLower).length = 1 →
      calculate_IC text = Except.error PyErr.zeroDivisionError) ∧
    (2 ≤ ((stripSpaces text).map pyLower).length →
      ∃ q : ℚ, calculate_IC text = Except.ok q ∧
        q = (((analyze_frequency ((stripSpaces text).map pyLower)).map
              fun (n : Nat) => n * (n - 1)).sum : ℚ) /
            ((((stripSpaces text).map pyLower).length : ℚ) *
             ((((stripSpaces text).map pyLower).length : ℚ) - 1)) ∧
        0 ≤ q ∧ q ≤ 1) := by
  refine ⟨?_, ?_, ?_⟩
  · intro h0
    simp only [calculate_IC]
    rw [if_pos h0]
  · intro h1
    simp only [calculate_IC]
    rw [if_neg (by omega), if_pos (by rw [h1])]
  · intro h2
    simp only [calculate_IC]
    rw [if_neg (by omega), if_neg (by
      intro hz
      have := Nat.mul_eq_zero.mp hz
      omega)]
    refine ⟨_, rfl, rfl, ?_, ?_⟩
    · apply div_nonneg
      · exact_mod_cast Nat.zero_le _
      · have hN : (2 : ℚ) ≤ (((stripSpaces text).map pyLower).length : ℚ) := by
          exact_mod_cast h2
        nlinarith
    · have hN : (2 : ℚ) ≤ (((stripSpaces text).map pyLower).length : ℚ) := by
        exact_mod_cast h2
      rw [div_le_one (by nlinarith)]
      have hnat : ((analyze_frequency ((stripSpaces text).map pyLower)).map
            fun (n : Nat) => n * (n - 1)).sum ≤
          ((stripSpaces text).map pyLower).length *
            (((stripSpaces text).map pyLower).length - 1) := by
        calc ((analyze_frequency ((stripSpaces text).map pyLower)).map
              fun (n : Nat) => n * (n - 1)).sum
            ≤ (analyze_frequency ((stripSpaces text).map pyLower)).sum *
                ((analyze_frequency ((stripSpaces text).map pyLower)).sum - 1) :=
              numer_le _
          _ ≤ ((stripSpaces text).map pyLower).length *
                (((stripSpaces text).map pyLower).length - 1) :=
              mul_pred_mono (analyze_frequency_sum_le _)
      have hc : (((analyze_frequency ((stripSpaces text).map pyLower)).map
            fun (n : Nat) => n * (n - 1)).sum : ℚ) ≤
          ((((stripSpaces text).map pyLower).length *
            (((stripSpaces text).map pyLower).length - 1) : Nat) : ℚ) := by
        exact_mod_cast hnat
      have hcast : ((((stripSpaces text).map pyLower).length *
            (((stripSpaces text).map pyLower).length - 1) : Nat) : ℚ) =
          (((stripSpaces text).map pyLower).length : ℚ) *
            ((((stripSpaces text).map pyLower).length : ℚ) - 1) := by
        push_cast [Nat.cast_sub (by omega : 1 ≤ ((stripSpaces text).map pyLower).length)]
        ring
      rw [hcast] at hc
      exact hc

/-- Counterexample for C5 as stated: on the single-character input `"a"` the
function raises `ZeroDivisionError` instead of returning a value. -/
theorem vig_calculate_IC_cex :
    calculate_IC [97] = Except.error PyErr.zeroDivisionError := by decide

/-- Witness for the amended C5 at the two-character input `"ab"`. -/
theorem vig_calculate_IC_amended_witness :
    2 ≤ ((stripSpaces [97, 98]).map pyLower).length ∧
    ∃ q : ℚ, calculate_IC [97, 98] = Except.ok q ∧
      q = (((analyze_frequency ((stripSpaces [97, 98]).map pyLower)).map
            fun (n : Nat) => n * (n - 1)).sum : ℚ) /
          ((((stripSpaces [97, 98]).map pyLower).length : ℚ) *
           ((((stripSpaces [97, 98]).map pyLower).length : ℚ) - 1)) ∧
      0 ≤ q ∧ q ≤ 1 :=
  ⟨by decide, (vig_calculate_IC_amended [97, 98]).2.2 (by decide)⟩

end Vigenere

namespace Vigenere

lemma pairLE_of_lt {p q : Nat × Int} (h : pairLT p q) : pairLE p q := by
  unfold pairLT at h
  unfold pairLE
  omega

lemma pairLE_of_not_lt {p q : Nat × Int} (h : ¬ pairLT q p) : pairLE p q := by
  unfold pairLT at h
  unfold pairLE
  omega

lemma pairLE_trans {p q r : Nat × Int} (h1 : pairLE p q) (h2 : pairLE q r) : pairLE p r := by
  unfold pairLE at *
  omega

lemma insertPair_perm (x : Nat × Int) : ∀ l, (insertPair x l).Perm (x :: l) := by
  intro l
  induction l with
  | nil => exact List.Perm.refl _
  | cons y ys ih =>
    unfold insertPair
    split_ifs with h
    · exact (List.Perm.cons y ih).trans (List.Perm.swap x y ys)
    · exact List.Perm.refl _

lemma pySortPairs_perm : ∀ l, (pySortPairs l).Perm l := by
  intro l
  induction l with
  | nil => exact List.Perm.refl _
  | cons x xs ih =>
    unfold pySortPairs
    exact (insertPair_perm x _).trans (List.Perm.cons x ih)

lemma insertPair_sorted (x : Nat × Int) : ∀ l, l.Pairwise pairLE →
    (insertPair x l).Pairwise pairLE := by
  intro l
  induction l with
  | nil =>
    intro _
    simp [insertPair]
  | cons y ys ih =>
    intro hs
    rw [List.pairwise_cons] at hs
    unfold insertPair
    split_ifs with h
    · rw [List.pairwise_cons]
      constructor
      · intro z hz
        have hz2 : z ∈ x :: ys := (insertPair_perm x ys).mem_iff.mp hz
        rcases List.mem_cons.mp hz2 with rfl | hz3
        · exact pairLE_of_lt h
        · exact hs.1 z hz3
      · exact ih hs.2
    · rw [List.pairwise_cons]
      constructor
      · intro z hz
        rcases List.mem_cons.mp hz with rfl | hz3
        · exact pairLE_of_not_lt h
        · exact pairLE_trans (pairLE_of_not_lt h) (hs.1 z hz3)
      · rw [List.pairwise_cons]
        exact ⟨hs.1, hs.2⟩

lemma pySortPairs_sorted : ∀ l, (pySortPairs l).Pairwise pairLE := by
  intro l
  induction l with
  | nil => exact List.Pairwise.nil
  | cons x xs ih => exact insertPair_sorted x _ ih

lemma columnSort_length (col : List Int) : (columnSort col).length = min 26 col.length := by
  unfold columnSort
  rw [List.length_map, (pySortPairs_perm _).length_eq, List.length_zip,
    analyze_frequency_length]

/-- Claim C9 amended: the column step of the key-recovery engine zips the
26-entry frequency table positionally with the column (truncating to
`min 26 (column length)` entries), sorts the pairs by Python's lexicographic
tuple order — i.e. each character is keyed by the frequency counter at its
position index, with ties broken by character code, not by original order —
and the candidate shift anchors on index 1 (the second entry) of the sorted
column against the ranking `'etaoinshrdlcumwfgypbvkjxqz'`. -/
theorem vig_column_sort_amended (col : List Int) :
    (columnSort col).length = min 26 col.length ∧
    (pySortPairs ((analyze_frequency col).zip col)).Perm
      ((analyze_frequency col).zip col) ∧
    (pySortPairs ((analyze_frequency col).zip col)).Pairwise pairLE ∧
    columnSort col = (pySortPairs ((analyze_frequency col).zip col)).map Prod.snd ∧
    (∀ j : Nat, candidateShift (columnSort col) j =
      mod_26 ((columnSort col).get! 1 - FREQ_ORDER.get! j)) := by
  refine ⟨columnSort_length col, pySortPairs_perm _, pySortPairs_sorted _, rfl, ?_⟩
  intro j
  unfold candidateShift mod_26
  congr 1
  ring

/-- Counterexample for C9 as stated: on the column `"abb"` the code's
`sorted(zip(freq, col))` step yields `"bab"` — not even ordered by the
characters' own frequencies (2, 1, 2) — while the stable
sort-by-own-frequency described by the specification yields `"abb"`. -/
theorem vig_column_sort_cex :
    (columnSort [97, 98, 98] = specStableSortByFreq [97, 98, 98]) ↔ False := by
  constructor
  · intro h
    have h1 : columnSort [97, 98, 98] = [98, 97, 98] := by decide
    have h2 : specStableSortByFreq [97, 98, 98] = [97, 98, 98] := by decide
    rw [h1, h2] at h
    exact absurd h (by decide)
  · exact False.elim

end Vigenere

namespace Vigenere

lemma kasiski_cases (ct : List Int) :
    kasiski_test ct = Except.error PyErr.typeError ∨ kasiski_test ct = Except.ok none := by
  unfold kasiski_test
  cases kasiski_substrings (stripSpaces ct) with
  | nil => right; rfl
  | cons a t => left; rfl

lemma calculate_IC_shape (ct : List Int) :
    calculate_IC ct = Except.error PyErr.zeroDivisionError ∨
    ∃ q, calculate_IC ct = Except.ok q := by
  simp only [calculate_IC]
  split_ifs with h1 h2
  · right
    exact ⟨0, rfl⟩
  · left
    rfl
  · right
    exact ⟨_, rfl⟩

lemma IC_test_shape (n : Nat) (ic : ℚ) :
    IC_test n ic = Except.error PyErr.zeroDivisionError ∨
    ∃ r, IC_test n ic = Except.ok r := by
  simp only [IC_test]
  split_ifs with h1
  · left
    rfl
  · right
    exact ⟨_, rfl⟩

lemma brute_force_no_indexError (ct pt : List Int) :
    brute_force ct pt ≠ Except.error PyErr.indexError := by
  unfold brute_force
  rcases kasiski_cases ct with hk | hk <;> simp only [hk]
  · decide
  · rcases calculate_IC_shape ct with hic | ⟨q, hic⟩ <;> simp only [hic]
    · decide
    · rcases IC_test_shape ct.length q with hr | ⟨r, hr⟩ <;> simp only [hr]
      · decide
      · split_ifs with h0
        · decide
        · decide

/-- Claim C10 amended: the column engine of `brute_force` reads index 1 of
each sorted column (whose length is `min 26 (column length)`), and a column
with fewer than two characters makes it raise `IndexError` — the engine does
so on cipher text `"abc"`, plain text `"aaa"` and probable length 2, whose
second column holds the single character `"b"`; but that engine is
unreachable, because `kasiski_test` raises `TypeError` whenever a repeated
substring exists and returns `None` otherwise, so `brute_force` never raises
`IndexError` on any input. -/
theorem vig_bf_sort_index_unreachable :
    (∀ ct pt : List Int, brute_force ct pt ≠ Except.error PyErr.indexError) ∧
    plFold [97, 98, 99] [97, 97, 97] [2] none = Except.error PyErr.indexError :=
  ⟨brute_force_no_indexError, by decide⟩

/-- Counterexample for C10 as stated: no input makes `brute_force` raise
`IndexError`, because the column engine is never reached. -/
theorem vig_bf_sort_index_cex :
    (∃ ct pt : List Int, brute_force ct pt = Except.error PyErr.indexError) ↔ False := by
  constructor
  · rintro ⟨ct, pt, h⟩
    exact brute_force_no_indexError ct pt h
  · exact False.elim

/-- Witness for the amended C10 at the empty input. -/
theorem vig_bf_sort_index_unreachable_witness :
    brute_force [] [] ≠ Except.error PyErr.indexError ∧
    plFold [97, 98, 99] [97, 97, 97] [2] none = Except.error PyErr.indexError :=
  ⟨vig_bf_sort_index_unreachable.1 [] [], vig_bf_sort_index_unreachable.2⟩

end Vigenere
